import Mathlib

/-!
Verification of the TLV serialization codec (`tlv.py`).

The development shallowly embeds the codec: Python strings become
`List Char`, Python `int` becomes `Int`/`Nat`, Python exceptions become an
explicit error type, and the recursive decoder is written with explicit
fuel (the top-level entry point supplies `length + 1` fuel, which the
round-trip lemmas show is always sufficient on encoded inputs).
-/

namespace TLV

/-! ### Python text primitives -/

/-- ASCII whitespace stripped by Python's `int()` conversion. -/
def isPySpace (c : Char) : Bool :=
  c = ' ' || c = '\t' || c = '\n' || c = '\r' || c = Char.ofNat 11 || c = Char.ofNat 12

/-- Whitespace stripping, as `int()` applies it. -/
def pyStrip (cs : List Char) : List Char :=
  ((cs.dropWhile isPySpace).reverse.dropWhile isPySpace).reverse

/-- Digit run of a Python integer literal: decimal digits with single
underscores allowed between digits (CPython's `int(str)` grammar).
`acc` is the value read so far, `lastDigit` whether the previous
character was a digit. -/
def parseDigits : List Char → Nat → Bool → Option Nat
  | [], acc, lastDigit => if lastDigit then some acc else Option.none
  | c :: cs, acc, lastDigit =>
    if c.isDigit then parseDigits cs (acc * 10 + (c.toNat - 48)) true
    else if c == '_' && lastDigit then parseDigits cs acc false
    else Option.none

/-- Sign handling of CPython's `int(str)`. -/
def pyIntSigned (cs : List Char) : Option Int :=
  match cs with
  | [] => Option.none
  | c :: rest =>
    if c = '+' then (parseDigits rest 0 false).map (fun n => (n : Int))
    else if c = '-' then (parseDigits rest 0 false).map (fun n => -(n : Int))
    else (parseDigits cs 0 false).map (fun n => (n : Int))

/-- CPython `int(str)`: strip whitespace, then signed digit run. -/
def pyInt (cs : List Char) : Option Int :=
  pyIntSigned (pyStrip cs)

/-- Resolve one Python slice index against a length (negative indices
count from the end; out-of-range indices clamp). -/
def pyIdx (n : Nat) (i : Int) : Nat :=
  if i < 0 then (i + n).toNat else min i.toNat n

/-- Python slice `cs[start:stop]` (clamping, never raising). -/
def pySlice (cs : List Char) (start stop : Int) : List Char :=
  (cs.take (pyIdx cs.length stop)).drop (pyIdx cs.length start)

/-- The ASCII character of one decimal digit. -/
def digitChar (d : Nat) : Char := Char.ofNat (48 + d)

/-- Digit loop of Python `str(n)`, with explicit fuel so that it reduces
definitionally; `natStr` supplies fuel `n + 1`, always sufficient. -/
def natStrGo : Nat → Nat → List Char → List Char
  | 0, _, acc => acc
  | f + 1, n, acc =>
    if n < 10 then digitChar n :: acc
    else natStrGo f (n / 10) (digitChar (n % 10) :: acc)

/-- Python `str(n)` for a non-negative integer. -/
def natStr (n : Nat) : List Char := natStrGo (n + 1) n []

/-- Python `str(i)` for an arbitrary integer. -/
def intStr (i : Int) : List Char :=
  if i < 0 then '-' :: natStr (-i).toNat else natStr i.toNat

/-! ### Abstract models of the CPython float and datetime text codecs

The source `tlv.py` delegates number and timestamp text rendering to the standard
library (`str`/`float`, `isoformat`/`fromisoformat`).  These library
codecs are modelled abstractly, at the granularity the codec uses them:
a float is identified with its shortest `repr` string (CPython documents
that `float(repr(x)) == x` for every finite `x`, that `repr` is injective
on non-NaN floats, and that NaN renders as `"nan"` and compares unequal
to everything), and a datetime with its ISO-8601 rendering (CPython
documents `fromisoformat(d.isoformat()) == d`). -/

/-- A CPython float, identified by its canonical `repr` text; `nan` is
kept apart because it breaks equality. `num` covers all finite values and
the two infinities (`"inf"` / `"-inf"`). -/
inductive PyFloat where
  | nan : PyFloat
  | num (r : List Char) : PyFloat
deriving DecidableEq, Repr

/-- Python `str(x)` on a float. -/
def pyFloatStr : PyFloat → List Char
  | .nan => ['n', 'a', 'n']
  | .num r => r

/-- Python `float(s)` restricted to canonical rendered text (the only
text the verified claims ever parse). -/
def pyFloatOfStr (s : List Char) : PyFloat :=
  if s = ['n', 'a', 'n'] then .nan else .num s

/-- A CPython `datetime`, identified by its `isoformat()` rendering. -/
structure PyDatetime where
  iso : List Char
deriving DecidableEq, Repr

/-- Parsing `datetime.fromisoformat`, on isoformat output. -/
def pyDatetimeOfStr (s : List Char) : PyDatetime := ⟨s⟩

/-! ### The supported value universe -/

/-- A Python value of one of the types registered in `tlv.py`'s
`Factory`: `None`, `bool`, `str`, `int`, `float`, `datetime`, `list`,
`tuple`, `set`, `dict`. A `set` is carried in its iteration order, a
`dict` as its key-value pairs in insertion order. -/
inductive Value where
  | none : Value
  | bool (b : Bool) : Value
  | str (s : List Char) : Value
  | int (n : Int) : Value
  | float (x : PyFloat) : Value
  | datetime (d : PyDatetime) : Value
  | list (xs : List Value) : Value
  | tuple (xs : List Value) : Value
  | set (xs : List Value) : Value
  | dict (ps : List (Value × Value)) : Value

/-! ### Python `==` on supported values

Needed both inside the decoder (`set(items)` / `dict(pairs)` deduplicate
by `==`) and to state the round-trip claims, whose equality is Python's.
Cross-type numeric coercion (`1 == 1.0`) is not modelled: the claims only
ever compare structurally like-shaped values. NaN compares unequal to
everything, itself included, exactly as in Python. -/

mutual

def pyEq : Value → Value → Bool
  | .none, .none => true
  | .bool a, .bool b => a == b
  | .str a, .str b => a == b
  | .int a, .int b => a == b
  | .float a, .float b =>
    match a, b with
    | .nan, _ => false
    | _, .nan => false
    | .num r, .num r' => r == r'
  | .datetime a, .datetime b => a == b
  | .list xs, .list ys => pyEqList xs ys
  | .tuple xs, .tuple ys => pyEqList xs ys
  | .set xs, .set ys => xs.length == ys.length && pySubset xs ys && pySubset ys xs
  | .dict ps, .dict qs => ps.length == qs.length && pyDictLe ps qs && pyDictLe qs ps
  | _, _ => false
termination_by a b => sizeOf a + sizeOf b

def pyEqList : List Value → List Value → Bool
  | [], [] => true
  | x :: xs, y :: ys => pyEq x y && pyEqList xs ys
  | _, _ => false
termination_by xs ys => sizeOf xs + sizeOf ys

def pyMem : Value → List Value → Bool
  | _, [] => false
  | x, y :: ys => pyEq x y || pyMem x ys
termination_by x ys => sizeOf x + sizeOf ys

def pySubset : List Value → List Value → Bool
  | [], _ => true
  | x :: xs, ys => pyMem x ys && pySubset xs ys
termination_by xs ys => sizeOf xs + sizeOf ys

def pyPairMem : Value × Value → List (Value × Value) → Bool
  | _, [] => false
  | (a, b), (c, d) :: qs => (pyEq a c && pyEq b d) || pyPairMem (a, b) qs
termination_by p qs => sizeOf p + sizeOf qs

def pyDictLe : List (Value × Value) → List (Value × Value) → Bool
  | [], _ => true
  | p :: ps, qs => pyPairMem p qs && pyDictLe ps qs
termination_by ps qs => sizeOf ps + sizeOf qs

end

/-! ### Containers built by the decoder -/

/-- One step of Python `set(items)`: insert unless an `==`-equal element
is already present (iteration order of small decoded sets is modelled as
first-occurrence order; set `==` is order-insensitive anyway). -/
def setInsert (acc : List Value) (x : Value) : List Value :=
  if acc.any (fun y => pyEq y x) then acc else acc ++ [x]

/-- Python `set(items)`. -/
def pySetOf (items : List Value) : List Value :=
  items.foldl setInsert []

/-- One step of Python `dict(pairs)`: a later duplicate key overwrites
the stored value but keeps the first key's position. -/
def dictInsert (acc : List (Value × Value)) (kv : Value × Value) :
    List (Value × Value) :=
  if acc.any (fun p => pyEq p.1 kv.1) then
    acc.map (fun p => if pyEq p.1 kv.1 then (p.1, kv.2) else p)
  else acc ++ [kv]

/-- Python `dict(pairs)` on already-shaped pairs. -/
def pyDictOf (pairs : List (Value × Value)) : List (Value × Value) :=
  pairs.foldl dictInsert []

/-! ### Encoding (`Handler._pack` and every handler's `encode`) -/

/-- Function `Handler._pack`: the fragment `TAG LENGTH ':' VALUE`. -/
def pack (tag : Char) (length : Nat) (value : List Char) : List Char :=
  tag :: (natStr length ++ ':' :: value)

mutual

/-- A handler's `encode`, dispatched as `Factory.get_by_data` does, by
the value's exact runtime type; returns `(fragment, value_length)`. -/
def encodeVal : Value → List Char × Nat
  | .none => (pack 'N' 0 [], 0)
  | .bool b =>
    let v : List Char := if b then ['1'] else ['0']
    (pack 'B' v.length v, v.length)
  | .str s => (pack 'S' s.length s, s.length)
  | .int n =>
    let v := intStr n
    (pack 'I' v.length v, v.length)
  | .float x =>
    let v := pyFloatStr x
    (pack 'F' v.length v, v.length)
  | .datetime d => (pack 'D' d.iso.length d.iso, d.iso.length)
  | .list xs =>
    let v := encodeItems xs
    (pack 'L' v.length v, v.length)
  | .tuple xs =>
    let v := encodeItems xs
    (pack 'T' v.length v, v.length)
  | .set xs =>
    let v := encodeItems xs
    (pack 's' v.length v, v.length)
  | .dict ps =>
    let v := encodePairs ps
    (pack 'd' v.length v, v.length)

/-- Join over the children, from `GenericCollectionHandler.encode`. -/
def encodeItems : List Value → List Char
  | [] => []
  | x :: xs => (encodeVal x).1 ++ encodeItems xs

/-- Join of `TupleHandler.encode((k, v))` fragments, from
`DictionaryHandler.encode`. -/
def encodePairs : List (Value × Value) → List Char
  | [] => []
  | (k, v) :: ps =>
    (let pv := (encodeVal k).1 ++ (encodeVal v).1
     pack 'T' pv.length pv) ++ encodePairs ps

end

/-- Entry point `dumps`: resolve the handler by type, return the fragment. -/
def dumps (v : Value) : List Char :=
  (encodeVal v).1

/-! ### Structural side conditions on values -/

/-- The leaf (non-container) values. -/
def isScalar : Value → Bool
  | .none | .bool _ | .str _ | .int _ | .float _ | .datetime _ => true
  | _ => false

mutual

/-- Whether a float NaN occurs anywhere inside the value. -/
def hasNaN : Value → Bool
  | .float .nan => true
  | .list xs => hasNaNList xs
  | .tuple xs => hasNaNList xs
  | .set xs => hasNaNList xs
  | .dict ps => hasNaNPairs ps
  | _ => false
termination_by v => sizeOf v

def hasNaNList : List Value → Bool
  | [] => false
  | x :: xs => hasNaN x || hasNaNList xs
termination_by xs => sizeOf xs

def hasNaNPairs : List (Value × Value) → Bool
  | [] => false
  | (k, v) :: ps => hasNaN k || hasNaN v || hasNaNPairs ps
termination_by ps => sizeOf ps

end

/-- No element of the list is Python-`==` to a later one. -/
def nodupVals : List Value → Bool
  | [] => true
  | x :: xs => !pyMem x xs && nodupVals xs

/-- Key membership among key-value pairs, by Python `==`. -/
def pyKeyMem (k : Value) : List (Value × Value) → Bool
  | [] => false
  | q :: qs => pyEq k q.1 || pyKeyMem k qs

/-- No key is Python-`==` to a later key. -/
def nodupKeyVals : List (Value × Value) → Bool
  | [] => true
  | p :: ps => !pyKeyMem p.1 ps && nodupKeyVals ps

mutual

/-- A value every real Python value maps to: the element list of a `set`
has Python-distinct elements, the pair list of a `dict` Python-distinct
keys (a Python set or dict cannot hold `==`-equal duplicates), and a
non-NaN float is never rendered `"nan"` (no CPython float reprs as
`"nan"` except NaN itself). -/
def wf : Value → Bool
  | .float (.num r) => !(r == ['n', 'a', 'n'])
  | .list xs => wfList xs
  | .tuple xs => wfList xs
  | .set xs => wfList xs && nodupVals xs
  | .dict ps => wfPairs ps && nodupKeyVals ps
  | _ => true
termination_by v => sizeOf v

def wfList : List Value → Bool
  | [] => true
  | x :: xs => wf x && wfList xs
termination_by xs => sizeOf xs

def wfPairs : List (Value × Value) → Bool
  | [] => true
  | (k, v) :: ps => wf k && wf v && wfPairs ps
termination_by ps => sizeOf ps

end

/-! ### Decoding (`Handler._unpack` and every handler's `decode`) -/

/-- The Python exceptions the decoder can raise, plus fuel exhaustion of
the embedded recursion (which, the lemmas show, never occurs with the
fuel `loads` supplies on the inputs the claims concern). -/
inductive Err where
  | indexError : Err
  | keyError : Err
  | valueError : Err
  | fuelOut : Err
deriving DecidableEq, Repr

/-- Negation of the delimiter test, used to split off the length field. -/
def notColon (c : Char) : Bool := c ≠ ':'

/-- Function `Handler._unpack`: read the tag, take the text before the first
delimiter as the length field, convert it with `int()`, and slice the
declared number of characters (Python slicing: clamping, never raising).
Returns `(value, length, value_offset)`. -/
def unpack (raw : List Char) : Except Err (List Char × Int × Nat) :=
  match raw with
  | [] => .error .indexError
  | _ :: rest =>
    let lengthStr := rest.takeWhile notColon
    let valueOffset := lengthStr.length + 2
    match pyInt lengthStr with
    | Option.none => .error .valueError
    | some len =>
      .ok (pySlice raw (valueOffset : Int) ((valueOffset : Int) + len),
           len, valueOffset)

/-- Python `dict(pairs)`'s arity check on one decoded pair: the pair must
be a 2-element sequence. -/
def toPair : List Value → Except Err (Value × Value)
  | [k, v] => .ok (k, v)
  | _ => .error .valueError

/-- Arity-check every decoded pair. -/
def toPairShapes : List (List Value) → Except Err (List (Value × Value))
  | [] => .ok []
  | t :: ts => do
    let p ← toPair t
    let ps ← toPairShapes ts
    .ok (p :: ps)

mutual

/-- A handler's `decode`, dispatched as `loads` / the collection loop do
via `Factory.get_by_raw_data` on the leading tag; returns
`(value, consumed_length)` where `consumed_length = len(value) + offset`. -/
def decodeVal : Nat → List Char → Except Err (Value × Nat)
  | 0, _ => .error .fuelOut
  | f + 1, raw =>
    match raw with
    | [] => .error .indexError
    | t :: _ =>
      if t = 'N' then do
        let (v, _, off) ← unpack raw
        .ok (.none, v.length + off)
      else if t = 'B' then do
        let (v, _, off) ← unpack raw
        match pyInt v with
        | Option.none => .error .valueError
        | some n => .ok (.bool (n != 0), v.length + off)
      else if t = 'S' then do
        let (v, _, off) ← unpack raw
        .ok (.str v, v.length + off)
      else if t = 'D' then do
        let (v, _, off) ← unpack raw
        .ok (.datetime (pyDatetimeOfStr v), v.length + off)
      else if t = 'I' then do
        let (v, _, off) ← unpack raw
        match pyInt v with
        | Option.none => .error .valueError
        | some n => .ok (.int n, v.length + off)
      else if t = 'F' then do
        let (v, _, off) ← unpack raw
        .ok (.float (pyFloatOfStr v), v.length + off)
      else if t = 'L' then do
        let (v, _, off) ← unpack raw
        let items ← decodeItems f v
        .ok (.list items, v.length + off)
      else if t = 'T' then do
        let (v, _, off) ← unpack raw
        let items ← decodeItems f v
        .ok (.tuple items, v.length + off)
      else if t = 's' then do
        let (v, _, off) ← unpack raw
        let items ← decodeItems f v
        .ok (.set (pySetOf items), v.length + off)
      else if t = 'd' then do
        let (v, _, off) ← unpack raw
        let ts ← decodePairs f v
        let ps ← toPairShapes ts
        .ok (.dict (pyDictOf ps), v.length + off)
      else .error .keyError

/-- Loop of `GenericCollectionHandler.decode` over the payload: while
characters remain, dispatch on the tag at the current offset, decode one
child from the remaining suffix, and advance by its consumed length. -/
def decodeItems : Nat → List Char → Except Err (List Value)
  | 0, _ => .error .fuelOut
  | f + 1, v =>
    match v with
    | [] => .ok []
    | _ :: _ => do
      let (item, n) ← decodeVal f v
      let rest ← decodeItems f (v.drop n)
      .ok (item :: rest)

/-- Loop of `DictionaryHandler.decode`: decode one pair at a time with
`TupleHandler.decode` applied directly (no tag dispatch or tag check). -/
def decodePairs : Nat → List Char → Except Err (List (List Value))
  | 0, _ => .error .fuelOut
  | f + 1, v =>
    match v with
    | [] => .ok []
    | _ :: _ => do
      let (pv, _, poff) ← unpack v
      let items ← decodeItems f pv
      let rest ← decodePairs f (v.drop (pv.length + poff))
      .ok (items :: rest)

end

/-- Entry point `loads`: resolve the handler by the leading tag, decode, and drop the
consumed length. The fuel `length + 1` is supplied; every claim either
shows it suffices or fails before any recursion. -/
def loads (raw : List Char) : Except Err Value :=
  (decodeVal (raw.length + 1) raw).map Prod.fst

/-- The character list of a string literal. -/
def strL (s : String) : List Char := s.data

/-- The leaf tags `Factory` registers a handler for. -/
def tagRegistered (t : Char) : Bool :=
  t = 'N' || t = 'B' || t = 'S' || t = 'D' || t = 'I' ||
  t = 'F' || t = 'L' || t = 'T' || t = 's' || t = 'd'

/-- Whether a value is a Python list or tuple. -/
def isListOrTuple : Value → Bool
  | .list _ => true
  | .tuple _ => true
  | _ => false

end TLV

namespace TLV

/-! ### Decimal rendering and parsing lemmas -/

theorem natStrGo_eq_digits :
    ∀ (f n : Nat) (acc : List Char), 0 < n → n < 10 ^ f →
      natStrGo f n acc = ((Nat.digits 10 n).map digitChar).reverse ++ acc := by
  intro f
  induction f with
  | zero =>
    intro n acc hn hf
    simp only [pow_zero] at hf
    omega
  | succ f ih =>
    intro n acc hn hf
    simp only [natStrGo]
    by_cases h10 : n < 10
    · rw [if_pos h10, Nat.digits_def' (by norm_num) hn, Nat.div_eq_of_lt h10,
        Nat.mod_eq_of_lt h10]
      simp
    · rw [if_neg h10]
      have hd : 0 < n / 10 := Nat.div_pos (by omega) (by omega)
      have hlt : n / 10 < 10 ^ f := by
        rw [Nat.div_lt_iff_lt_mul (by omega)]
        calc n < 10 ^ (f + 1) := hf
          _ = 10 ^ f * 10 := by ring
      rw [ih (n / 10) _ hd hlt, Nat.digits_def' (by norm_num) hn]
      simp

theorem foldl_horner (L : List Nat) (a : Nat) :
    L.reverse.foldl (fun x d => x * 10 + d) a =
      a * 10 ^ L.length + Nat.ofDigits 10 L := by
  induction L generalizing a with
  | nil => simp [Nat.ofDigits]
  | cons d L ih =>
    simp only [List.reverse_cons, List.foldl_append, List.foldl_cons,
      List.foldl_nil, ih, Nat.ofDigits_cons, List.length_cons, pow_succ]
    ring

theorem digitChar_props {d : Nat} (h : d < 10) :
    (digitChar d).isDigit = true ∧ digitChar d ≠ ':' ∧ digitChar d ≠ '+' ∧
      digitChar d ≠ '-' ∧ digitChar d ≠ '_' ∧ isPySpace (digitChar d) = false ∧
      (digitChar d).toNat - 48 = d := by
  interval_cases d <;> decide

theorem natStr_spec (n : Nat) :
    ∃ ds : List Nat, (∀ d ∈ ds, d < 10) ∧ ds ≠ [] ∧
      natStr n = ds.map digitChar ∧
      ds.foldl (fun a d => a * 10 + d) 0 = n := by
  rcases Nat.eq_zero_or_pos n with h0 | hp
  · subst h0
    exact ⟨[0], by simp, by simp, rfl, rfl⟩
  · refine ⟨(Nat.digits 10 n).reverse, ?_, ?_, ?_, ?_⟩
    · intro d hd
      exact Nat.digits_lt_base (by norm_num) (List.mem_reverse.mp hd)
    · simp only [ne_eq, List.reverse_eq_nil_iff, Nat.digits_eq_nil_iff_eq_zero]
      omega
    · have hf : n < 10 ^ (n + 1) :=
        lt_of_lt_of_le (Nat.lt_pow_self (by norm_num) n)
          (Nat.pow_le_pow_right (by norm_num) (by omega))
      rw [natStr, natStrGo_eq_digits (n + 1) n [] hp hf]
      simp [List.map_reverse]
    · rw [foldl_horner]
      simp [Nat.ofDigits_digits]

theorem parseDigits_map_true (ds : List Nat) (h : ∀ d ∈ ds, d < 10) :
    ∀ acc : Nat, parseDigits (ds.map digitChar) acc true =
      some (ds.foldl (fun a d => a * 10 + d) acc) := by
  induction ds with
  | nil => intro acc; rfl
  | cons d ds ih =>
    intro acc
    have hd : d < 10 := h d (by simp)
    have hp := digitChar_props hd
    simp only [List.map_cons, parseDigits, List.foldl_cons]
    rw [if_pos hp.1, hp.2.2.2.2.2.2]
    exact ih (fun x hx => h x (by simp [hx])) _

theorem parseDigits_map_false (ds : List Nat) (h : ∀ d ∈ ds, d < 10)
    (hne : ds ≠ []) (acc : Nat) :
    parseDigits (ds.map digitChar) acc false =
      some (ds.foldl (fun a d => a * 10 + d) acc) := by
  cases ds with
  | nil => exact absurd rfl hne
  | cons d ds =>
    have hd : d < 10 := h d (by simp)
    have hp := digitChar_props hd
    simp only [List.map_cons, parseDigits, List.foldl_cons]
    rw [if_pos hp.1, hp.2.2.2.2.2.2]
    exact parseDigits_map_true ds (fun x hx => h x (by simp [hx])) _

theorem dropWhile_eq_self_of_all {p : Char → Bool} (cs : List Char)
    (h : ∀ c ∈ cs, p c = false) : cs.dropWhile p = cs := by
  cases cs with
  | nil => rfl
  | cons c cs => simp [List.dropWhile_cons, h c (by simp)]

theorem pyStrip_eq_self (cs : List Char) (h : ∀ c ∈ cs, isPySpace c = false) :
    pyStrip cs = cs := by
  unfold pyStrip
  rw [dropWhile_eq_self_of_all cs h,
    dropWhile_eq_self_of_all _ (fun c hc => h c (List.mem_reverse.mp hc)),
    List.reverse_reverse]

theorem pyInt_natStr (n : Nat) : pyInt (natStr n) = some (Int.ofNat n) := by
  obtain ⟨ds, hlt, hne, heq, hval⟩ := natStr_spec n
  rw [heq]
  unfold pyInt
  rw [pyStrip_eq_self _ (by
    intro c hc
    obtain ⟨d, hd, rfl⟩ := List.mem_map.mp hc
    exact (digitChar_props (hlt d hd)).2.2.2.2.2.1)]
  unfold pyIntSigned
  cases ds with
  | nil => exact absurd rfl hne
  | cons d ds =>
    have hp := digitChar_props (hlt d (by simp))
    simp only [List.map_cons]
    rw [if_neg hp.2.2.1, if_neg hp.2.2.2.1,
      show digitChar d :: ds.map digitChar = (d :: ds).map digitChar from rfl,
      parseDigits_map_false (d :: ds) hlt (by simp) 0, hval]
    rfl

theorem pyInt_intStr (i : Int) : pyInt (intStr i) = some i := by
  unfold intStr
  by_cases hi : i < 0
  · rw [if_pos hi]
    obtain ⟨ds, hlt, hne, heq, hval⟩ := natStr_spec (-i).toNat
    rw [heq]
    unfold pyInt
    rw [pyStrip_eq_self _ (by
      intro c hc
      rcases List.mem_cons.mp hc with rfl | hc
      · decide
      · obtain ⟨d, hd, rfl⟩ := List.mem_map.mp hc
        exact (digitChar_props (hlt d hd)).2.2.2.2.2.1)]
    rw [show pyIntSigned ('-' :: ds.map digitChar)
        = (parseDigits (ds.map digitChar) 0 false).map (fun n => -(n : Int)) from rfl]
    rw [parseDigits_map_false ds hlt hne 0, hval]
    show some (-(((-i).toNat : Nat) : Int)) = some i
    congr 1
    omega
  · rw [if_neg hi, pyInt_natStr]
    have h : Int.ofNat i.toNat = i := by
      simp only [Int.ofNat_eq_coe]
      omega
    rw [h]

theorem natStr_ne_nil (n : Nat) : natStr n ≠ [] := by
  obtain ⟨ds, _, hne, heq, _⟩ := natStr_spec n
  rw [heq]
  simpa using hne

theorem natStr_ne_colon (n : Nat) : ∀ c ∈ natStr n, c ≠ ':' := by
  obtain ⟨ds, hlt, _, heq, _⟩ := natStr_spec n
  rw [heq]
  intro c hc
  obtain ⟨d, hd, rfl⟩ := List.mem_map.mp hc
  exact (digitChar_props (hlt d hd)).2.1

end TLV

namespace TLV

/-! ### Framing lemmas: unpack on a packed fragment -/

theorem takeWhile_ne_colon_append (xs rest : List Char)
    (h : ∀ c ∈ xs, c ≠ ':') :
    (xs ++ ':' :: rest).takeWhile notColon = xs := by
  induction xs with
  | nil => simp [List.takeWhile_cons, notColon]
  | cons c xs ih =>
    have hc : c ≠ ':' := h c (by simp)
    have hb : notColon c = true := by simp [notColon, hc]
    simp only [List.cons_append, List.takeWhile_cons, hb, if_true]
    rw [ih (fun x hx => h x (List.mem_cons_of_mem _ hx))]

theorem pySlice_extract (pre mid post : List Char) :
    pySlice (pre ++ mid ++ post) (pre.length : Int)
      ((pre.length : Int) + (mid.length : Int)) = mid := by
  have hs : (pre.length : Int) + (mid.length : Int)
      = ((pre.length + mid.length : Nat) : Int) := by
    push_cast
    ring
  unfold pySlice
  rw [hs]
  have h1 : pyIdx (pre ++ mid ++ post).length
      ((pre.length + mid.length : Nat) : Int) = pre.length + mid.length := by
    unfold pyIdx
    rw [if_neg (by omega)]
    simp only [Int.toNat_natCast, List.length_append]
    omega
  have h2 : pyIdx (pre ++ mid ++ post).length (pre.length : Int)
      = pre.length := by
    unfold pyIdx
    rw [if_neg (by omega)]
    simp only [Int.toNat_natCast, List.length_append]
    omega
  rw [h1, h2, show pre ++ mid ++ post = (pre ++ mid) ++ post from by simp,
    List.take_left' (by simp), List.drop_left]

theorem pack_length (t : Char) (L : Nat) (p : List Char) :
    (pack t L p).length = (natStr L).length + 2 + p.length := by
  simp only [pack, List.length_cons, List.length_append]
  omega

theorem unpack_pack (t : Char) (payload rest : List Char) :
    unpack (pack t payload.length payload ++ rest)
      = .ok (payload, (payload.length : Int), (natStr payload.length).length + 2) := by
  have hshape : pack t payload.length payload ++ rest
      = t :: (natStr payload.length ++ ':' :: (payload ++ rest)) := by
    simp [pack]
  rw [hshape]
  simp only [unpack]
  rw [takeWhile_ne_colon_append _ _ (natStr_ne_colon _), pyInt_natStr]
  simp only [Int.ofNat_eq_coe]
  have hpre : t :: (natStr payload.length ++ ':' :: (payload ++ rest))
      = (t :: natStr payload.length ++ [':']) ++ payload ++ rest := by
    simp
  have hlen : (natStr payload.length).length + 2
      = (t :: natStr payload.length ++ [':']).length := by
    simp only [List.length_cons, List.length_append, List.length_nil]
  rw [hpre, hlen, pySlice_extract]

/-! ### Fragment shape of every encoder -/

theorem encodeVal_shape (v : Value) :
    ∃ t p, encodeVal v = (pack t (List.length p) p, List.length p) := by
  cases v with
  | none => exact ⟨'N', [], rfl⟩
  | bool b => exact ⟨'B', if b then ['1'] else ['0'], rfl⟩
  | str s => exact ⟨'S', s, rfl⟩
  | int n => exact ⟨'I', intStr n, rfl⟩
  | float x => exact ⟨'F', pyFloatStr x, rfl⟩
  | datetime d => exact ⟨'D', d.iso, rfl⟩
  | list xs => exact ⟨'L', encodeItems xs, rfl⟩
  | tuple xs => exact ⟨'T', encodeItems xs, rfl⟩
  | set xs => exact ⟨'s', encodeItems xs, rfl⟩
  | dict ps => exact ⟨'d', encodePairs ps, rfl⟩

theorem encodeVal_length_ge (v : Value) : 3 ≤ ((encodeVal v).1).length := by
  obtain ⟨t, p, hp⟩ := encodeVal_shape v
  rw [hp]
  have := natStr_ne_nil (List.length p)
  have hpos : 0 < (natStr (List.length p)).length := List.length_pos.mpr this
  rw [pack_length]
  omega

end TLV

namespace TLV

/-! ### Python equality: reflexivity off NaN -/

theorem pyMem_of_mem {x y : Value} {ys : List Value} (hy : y ∈ ys)
    (h : pyEq x y = true) : pyMem x ys = true := by
  induction ys with
  | nil => cases hy
  | cons z zs ih =>
    rcases List.mem_cons.mp hy with rfl | hz
    · simp [pyMem, h]
    · simp [pyMem, ih hz]

theorem pySubset_of {xs ys : List Value}
    (h : ∀ x ∈ xs, pyMem x ys = true) : pySubset xs ys = true := by
  induction xs with
  | nil => simp [pySubset]
  | cons x xs ih =>
    simp [pySubset, h x (by simp), ih (fun z hz => h z (List.mem_cons_of_mem _ hz))]

theorem pyEqList_refl {xs : List Value}
    (h : ∀ x ∈ xs, pyEq x x = true) : pyEqList xs xs = true := by
  induction xs with
  | nil => simp [pyEqList]
  | cons x xs ih =>
    simp [pyEqList, h x (by simp), ih (fun z hz => h z (List.mem_cons_of_mem _ hz))]

theorem pyPairMem_of_mem {p q : Value × Value} {qs : List (Value × Value)}
    (hq : q ∈ qs) (h1 : pyEq p.1 q.1 = true) (h2 : pyEq p.2 q.2 = true) :
    pyPairMem p qs = true := by
  obtain ⟨a, b⟩ := p
  obtain ⟨c, d⟩ := q
  induction qs with
  | nil => cases hq
  | cons r rs ih =>
    obtain ⟨e, f⟩ := r
    rcases List.mem_cons.mp hq with heq | hr
    · obtain ⟨rfl, rfl⟩ := Prod.mk.injEq .. ▸ heq
      simp only [pyPairMem]
      simp only [Prod.fst, Prod.snd] at h1 h2
      simp [h1, h2]
    · simp [pyPairMem, ih hr]

theorem pyDictLe_of {ps qs : List (Value × Value)}
    (h : ∀ p ∈ ps, pyPairMem p qs = true) : pyDictLe ps qs = true := by
  induction ps with
  | nil => simp [pyDictLe]
  | cons p ps ih =>
    simp [pyDictLe, h p (by simp), ih (fun z hz => h z (List.mem_cons_of_mem _ hz))]

theorem hasNaNList_false {xs : List Value} (h : hasNaNList xs = false) :
    ∀ x ∈ xs, hasNaN x = false := by
  induction xs with
  | nil => simp
  | cons x xs ih =>
    simp only [hasNaNList, Bool.or_eq_false_iff] at h
    intro z hz
    rcases List.mem_cons.mp hz with rfl | hz'
    · exact h.1
    · exact ih h.2 z hz'

theorem hasNaNPairs_false {ps : List (Value × Value)} (h : hasNaNPairs ps = false) :
    ∀ p ∈ ps, hasNaN p.1 = false ∧ hasNaN p.2 = false := by
  induction ps with
  | nil => simp
  | cons p ps ih =>
    obtain ⟨a, b⟩ := p
    simp only [hasNaNPairs, Bool.or_eq_false_iff] at h
    intro q hq
    rcases List.mem_cons.mp hq with rfl | hq'
    · exact ⟨h.1.1, h.1.2⟩
    · exact ih h.2 q hq'

theorem pyEq_refl_aux :
    ∀ (n : Nat) (v : Value), sizeOf v ≤ n → hasNaN v = false → pyEq v v = true := by
  intro n
  induction n with
  | zero =>
    intro v hs _
    exfalso
    cases v <;> simp at hs
  | succ n ih =>
    intro v hs hn
    cases v with
    | none => simp [pyEq]
    | bool b => simp [pyEq]
    | str s => simp [pyEq]
    | int i => simp [pyEq]
    | float x =>
      cases x with
      | nan => simp [hasNaN] at hn
      | num r => simp [pyEq]
    | datetime d => simp [pyEq]
    | list xs =>
      have hmem : ∀ x ∈ xs, pyEq x x = true := by
        intro x hx
        have hsz : sizeOf x ≤ n := by
          have h1 : sizeOf x < sizeOf xs := List.sizeOf_lt_of_mem hx
          have h2 : sizeOf (Value.list xs) = 1 + sizeOf xs := by simp
          omega
        exact ih x hsz (hasNaNList_false (by simpa [hasNaN] using hn) x hx)
      simp [pyEq, pyEqList_refl hmem]
    | tuple xs =>
      have hmem : ∀ x ∈ xs, pyEq x x = true := by
        intro x hx
        have hsz : sizeOf x ≤ n := by
          have h1 : sizeOf x < sizeOf xs := List.sizeOf_lt_of_mem hx
          have h2 : sizeOf (Value.tuple xs) = 1 + sizeOf xs := by simp
          omega
        exact ih x hsz (hasNaNList_false (by simpa [hasNaN] using hn) x hx)
      simp [pyEq, pyEqList_refl hmem]
    | set xs =>
      have hmem : ∀ x ∈ xs, pyEq x x = true := by
        intro x hx
        have hsz : sizeOf x ≤ n := by
          have h1 : sizeOf x < sizeOf xs := List.sizeOf_lt_of_mem hx
          have h2 : sizeOf (Value.set xs) = 1 + sizeOf xs := by simp
          omega
        exact ih x hsz (hasNaNList_false (by simpa [hasNaN] using hn) x hx)
      have hsub : pySubset xs xs = true :=
        pySubset_of (fun x hx => pyMem_of_mem hx (hmem x hx))
      simp [pyEq, hsub]
    | dict ps =>
      have hmem : ∀ p ∈ ps, pyEq p.1 p.1 = true ∧ pyEq p.2 p.2 = true := by
        intro p hp
        obtain ⟨hn1, hn2⟩ := hasNaNPairs_false (by simpa [hasNaN] using hn) p hp
        have hszp : sizeOf p < sizeOf ps := List.sizeOf_lt_of_mem hp
        obtain ⟨a, b⟩ := p
        have h2 : sizeOf (Value.dict ps) = 1 + sizeOf ps := by simp
        have hsa : sizeOf a ≤ n := by
          have : sizeOf (a, b) = 1 + sizeOf a + sizeOf b := by simp
          omega
        have hsb : sizeOf b ≤ n := by
          have : sizeOf (a, b) = 1 + sizeOf a + sizeOf b := by simp
          omega
        exact ⟨ih a hsa hn1, ih b hsb hn2⟩
      have hle : pyDictLe ps ps = true :=
        pyDictLe_of (fun p hp => pyPairMem_of_mem hp (hmem p hp).1 (hmem p hp).2)
      simp [pyEq, hle]

theorem pyEq_refl (v : Value) (h : hasNaN v = false) : pyEq v v = true :=
  pyEq_refl_aux (sizeOf v) v le_rfl h

end TLV

namespace TLV

/-! ### Set and dict construction on duplicate-free input -/

theorem pyMem_false_of {x z : Value} {xs : List Value}
    (h : pyMem x xs = false) (hz : z ∈ xs) : pyEq x z = false := by
  induction xs with
  | nil => cases hz
  | cons y ys ih =>
    simp only [pyMem, Bool.or_eq_false_iff] at h
    rcases List.mem_cons.mp hz with rfl | hz'
    · exact h.1
    · exact ih h.2 hz'

theorem foldl_setInsert_eq (xs : List Value) :
    ∀ acc, (∀ x ∈ xs, acc.any (fun y => pyEq y x) = false) →
      nodupVals xs = true → xs.foldl setInsert acc = acc ++ xs := by
  induction xs with
  | nil =>
    intro acc _ _
    simp
  | cons x xs ih =>
    intro acc hacc hnd
    have hx : acc.any (fun y => pyEq y x) = false := hacc x (by simp)
    simp only [nodupVals, Bool.and_eq_true, Bool.not_eq_true'] at hnd
    simp only [List.foldl_cons, setInsert, hx, Bool.false_eq_true, if_false]
    rw [ih (acc ++ [x]) ?_ hnd.2]
    · simp
    · intro z hz
      have h1 : acc.any (fun y => pyEq y z) = false := hacc z (by simp [hz])
      have h2 : pyEq x z = false := pyMem_false_of hnd.1 hz
      simp [List.any_append, h1, h2]

theorem pySetOf_nodup (xs : List Value) (hnd : nodupVals xs = true) :
    pySetOf xs = xs := by
  unfold pySetOf
  rw [foldl_setInsert_eq xs [] (by simp) hnd]
  simp

theorem pyKeyMem_false_of {k : Value} {q : Value × Value}
    {ps : List (Value × Value)} (h : pyKeyMem k ps = false) (hq : q ∈ ps) :
    pyEq k q.1 = false := by
  induction ps with
  | nil => cases hq
  | cons p ps ih =>
    simp only [pyKeyMem, Bool.or_eq_false_iff] at h
    rcases List.mem_cons.mp hq with rfl | hq'
    · exact h.1
    · exact ih h.2 hq'

theorem foldl_dictInsert_eq (ps : List (Value × Value)) :
    ∀ acc, (∀ p ∈ ps, acc.any (fun q => pyEq q.1 p.1) = false) →
      nodupKeyVals ps = true → ps.foldl dictInsert acc = acc ++ ps := by
  induction ps with
  | nil =>
    intro acc _ _
    simp
  | cons p ps ih =>
    intro acc hacc hnd
    have hp : acc.any (fun q => pyEq q.1 p.1) = false := hacc p (by simp)
    simp only [nodupKeyVals, Bool.and_eq_true, Bool.not_eq_true'] at hnd
    simp only [List.foldl_cons, dictInsert, hp, Bool.false_eq_true, if_false]
    rw [ih (acc ++ [p]) ?_ hnd.2]
    · simp
    · intro q hq
      have h1 : acc.any (fun r => pyEq r.1 q.1) = false := hacc q (by simp [hq])
      have h2 : pyEq p.1 q.1 = false := pyKeyMem_false_of hnd.1 hq
      simp [List.any_append, h1, h2]

theorem pyDictOf_nodup (ps : List (Value × Value)) (hnd : nodupKeyVals ps = true) :
    pyDictOf ps = ps := by
  unfold pyDictOf
  rw [foldl_dictInsert_eq ps [] (by simp) hnd]
  simp

theorem toPairShapes_map (ps : List (Value × Value)) :
    toPairShapes (ps.map (fun p => [p.1, p.2])) = .ok ps := by
  induction ps with
  | nil => rfl
  | cons p ps ih =>
    obtain ⟨k, v⟩ := p
    simp only [List.map_cons, toPairShapes, toPair, ih]
    rfl

end TLV

namespace TLV

/-! ### One unfolding of the decoder on a packed fragment -/

theorem errBind_ok {α β : Type} (a : α) (k : α → Except Err β) :
    (bind (Except.ok a : Except Err α) k) = k a := rfl

theorem pyFloatOfStr_str {x : PyFloat}
    (h : ∀ r, x = .num r → r ≠ ['n', 'a', 'n']) :
    pyFloatOfStr (pyFloatStr x) = x := by
  cases x with
  | nan => rfl
  | num r =>
    have hr : r ≠ ['n', 'a', 'n'] := h r rfl
    simp [pyFloatStr, pyFloatOfStr, hr]

theorem decodeVal_succ_eq (f : Nat) (t : Char) (p rest : List Char) :
    decodeVal (f + 1) (pack t p.length p ++ rest)
      = (if t = 'N' then
           .ok (Value.none, p.length + ((natStr p.length).length + 2))
         else if t = 'B' then
           (match pyInt p with
            | Option.none => Except.error Err.valueError
            | some n =>
              .ok (Value.bool (n != 0), p.length + ((natStr p.length).length + 2)))
         else if t = 'S' then
           .ok (Value.str p, p.length + ((natStr p.length).length + 2))
         else if t = 'D' then
           .ok (Value.datetime (pyDatetimeOfStr p),
                p.length + ((natStr p.length).length + 2))
         else if t = 'I' then
           (match pyInt p with
            | Option.none => Except.error Err.valueError
            | some n =>
              .ok (Value.int n, p.length + ((natStr p.length).length + 2)))
         else if t = 'F' then
           .ok (Value.float (pyFloatOfStr p),
                p.length + ((natStr p.length).length + 2))
         else if t = 'L' then
           bind (decodeItems f p) (fun items =>
             .ok (Value.list items, p.length + ((natStr p.length).length + 2)))
         else if t = 'T' then
           bind (decodeItems f p) (fun items =>
             .ok (Value.tuple items, p.length + ((natStr p.length).length + 2)))
         else if t = 's' then
           bind (decodeItems f p) (fun items =>
             .ok (Value.set (pySetOf items),
                  p.length + ((natStr p.length).length + 2)))
         else if t = 'd' then
           bind (decodePairs f p) (fun ts =>
             bind (toPairShapes ts) (fun ps =>
               .ok (Value.dict (pyDictOf ps),
                    p.length + ((natStr p.length).length + 2))))
         else .error .keyError) := by
  have hcons : pack t p.length p ++ rest
      = t :: (natStr p.length ++ ':' :: (p ++ rest)) := by
    simp [pack]
  have hunp : unpack (t :: (natStr p.length ++ ':' :: (p ++ rest)))
      = .ok (p, (p.length : Int), (natStr p.length).length + 2) := by
    rw [← hcons]
    exact unpack_pack t p rest
  rw [hcons]
  simp only [decodeVal]
  rw [hunp]
  simp only [errBind_ok]

end TLV

namespace TLV

/-! ### The round-trip invariant, by induction on fuel -/

theorem decode_encode_fuel : ∀ f : Nat,
    (∀ v rest, wf v = true → (dumps v).length ≤ f →
      decodeVal f (dumps v ++ rest) = .ok (v, (dumps v).length))
    ∧ (∀ vs, wfList vs = true → (encodeItems vs).length + 1 ≤ f →
      decodeItems f (encodeItems vs) = .ok vs)
    ∧ (∀ ps, wfPairs ps = true → (encodePairs ps).length + 1 ≤ f →
      decodePairs f (encodePairs ps) = .ok (ps.map (fun p => [p.1, p.2]))) := by
  intro f
  induction f with
  | zero =>
    refine ⟨?_, ?_, ?_⟩
    · intro v rest _ hlen
      have := encodeVal_length_ge v
      have h : (dumps v).length = ((encodeVal v).1).length := rfl
      omega
    · intro vs _ hlen
      omega
    · intro ps _ hlen
      omega
  | succ f ihf =>
    obtain ⟨ihv, ihi, ihp⟩ := ihf
    refine ⟨?_, ?_, ?_⟩
    · intro v rest hwf hlen
      cases v with
      | none =>
        show decodeVal (f + 1) (pack 'N' (List.length ([] : List Char)) [] ++ rest)
            = Except.ok (Value.none, (pack 'N' (List.length ([] : List Char)) []).length)
        rw [decodeVal_succ_eq, if_pos rfl]
        rfl
      | bool b =>
        cases b with
        | false =>
          show decodeVal (f + 1) (pack 'B' (List.length ['0']) ['0'] ++ rest)
              = Except.ok (Value.bool false, (pack 'B' (List.length ['0']) ['0']).length)
          rw [decodeVal_succ_eq, if_neg (by decide), if_pos rfl]
          rfl
        | true =>
          show decodeVal (f + 1) (pack 'B' (List.length ['1']) ['1'] ++ rest)
              = Except.ok (Value.bool true, (pack 'B' (List.length ['1']) ['1']).length)
          rw [decodeVal_succ_eq, if_neg (by decide), if_pos rfl]
          rfl
      | str s =>
        show decodeVal (f + 1) (pack 'S' (List.length s) s ++ rest)
            = Except.ok (Value.str s, (pack 'S' (List.length s) s).length)
        rw [decodeVal_succ_eq, if_neg (by decide), if_neg (by decide), if_pos rfl,
          pack_length]
        simp only [Except.ok.injEq, Prod.mk.injEq]
        exact ⟨by trivial, by omega⟩
      | datetime d =>
        show decodeVal (f + 1) (pack 'D' (List.length d.iso) d.iso ++ rest)
            = Except.ok (Value.datetime d, (pack 'D' (List.length d.iso) d.iso).length)
        rw [decodeVal_succ_eq, if_neg (by decide), if_neg (by decide),
          if_neg (by decide), if_pos rfl, pack_length]
        simp only [Except.ok.injEq, Prod.mk.injEq]
        exact ⟨by trivial, by omega⟩
      | int n =>
        show decodeVal (f + 1) (pack 'I' (List.length (intStr n)) (intStr n) ++ rest)
            = Except.ok (Value.int n, (pack 'I' (List.length (intStr n)) (intStr n)).length)
        rw [decodeVal_succ_eq, if_neg (by decide), if_neg (by decide),
          if_neg (by decide), if_neg (by decide), if_pos rfl, pyInt_intStr,
          pack_length]
        simp only [Except.ok.injEq, Prod.mk.injEq]
        exact ⟨by trivial, by omega⟩
      | float x =>
        have hx : pyFloatOfStr (pyFloatStr x) = x := by
          apply pyFloatOfStr_str
          intro r hr
          subst hr
          simp only [wf] at hwf
          simpa using hwf
        show decodeVal (f + 1)
              (pack 'F' (List.length (pyFloatStr x)) (pyFloatStr x) ++ rest)
            = Except.ok (Value.float x,
                (pack 'F' (List.length (pyFloatStr x)) (pyFloatStr x)).length)
        rw [decodeVal_succ_eq, if_neg (by decide), if_neg (by decide),
          if_neg (by decide), if_neg (by decide), if_neg (by decide), if_pos rfl,
          hx, pack_length]
        simp only [Except.ok.injEq, Prod.mk.injEq]
        exact ⟨by trivial, by omega⟩
      | list xs =>
        have hwl : wfList xs = true := by simpa [wf] using hwf
        have hl : (pack 'L' (List.length (encodeItems xs)) (encodeItems xs)).length
            ≤ f + 1 := hlen
        rw [pack_length] at hl
        have hns : 1 ≤ (natStr (encodeItems xs).length).length :=
          List.length_pos.mpr (natStr_ne_nil _)
        show decodeVal (f + 1)
              (pack 'L' (List.length (encodeItems xs)) (encodeItems xs) ++ rest)
            = Except.ok (Value.list xs,
                (pack 'L' (List.length (encodeItems xs)) (encodeItems xs)).length)
        rw [decodeVal_succ_eq, if_neg (by decide), if_neg (by decide),
          if_neg (by decide), if_neg (by decide), if_neg (by decide),
          if_neg (by decide), if_pos rfl,
          ihi xs hwl (by omega), errBind_ok, pack_length]
        simp only [Except.ok.injEq, Prod.mk.injEq]
        exact ⟨by trivial, by omega⟩
      | tuple xs =>
        have hwl : wfList xs = true := by simpa [wf] using hwf
        have hl : (pack 'T' (List.length (encodeItems xs)) (encodeItems xs)).length
            ≤ f + 1 := hlen
        rw [pack_length] at hl
        have hns : 1 ≤ (natStr (encodeItems xs).length).length :=
          List.length_pos.mpr (natStr_ne_nil _)
        show decodeVal (f + 1)
              (pack 'T' (List.length (encodeItems xs)) (encodeItems xs) ++ rest)
            = Except.ok (Value.tuple xs,
                (pack 'T' (List.length (encodeItems xs)) (encodeItems xs)).length)
        rw [decodeVal_succ_eq, if_neg (by decide), if_neg (by decide),
          if_neg (by decide), if_neg (by decide), if_neg (by decide),
          if_neg (by decide), if_neg (by decide), if_pos rfl,
          ihi xs hwl (by omega), errBind_ok, pack_length]
        simp only [Except.ok.injEq, Prod.mk.injEq]
        exact ⟨by trivial, by omega⟩
      | set xs =>
        have hw : wfList xs = true ∧ nodupVals xs = true := by
          have h := hwf
          simp only [wf, Bool.and_eq_true] at h
          exact h
        have hl : (pack 's' (List.length (encodeItems xs)) (encodeItems xs)).length
            ≤ f + 1 := hlen
        rw [pack_length] at hl
        have hns : 1 ≤ (natStr (encodeItems xs).length).length :=
          List.length_pos.mpr (natStr_ne_nil _)
        show decodeVal (f + 1)
              (pack 's' (List.length (encodeItems xs)) (encodeItems xs) ++ rest)
            = Except.ok (Value.set xs,
                (pack 's' (List.length (encodeItems xs)) (encodeItems xs)).length)
        rw [decodeVal_succ_eq, if_neg (by decide), if_neg (by decide),
          if_neg (by decide), if_neg (by decide), if_neg (by decide),
          if_neg (by decide), if_neg (by decide), if_neg (by decide), if_pos rfl,
          ihi xs hw.1 (by omega), errBind_ok, pySetOf_nodup xs hw.2, pack_length]
        simp only [Except.ok.injEq, Prod.mk.injEq]
        exact ⟨by trivial, by omega⟩
      | dict ps =>
        have hw : wfPairs ps = true ∧ nodupKeyVals ps = true := by
          have h := hwf
          simp only [wf, Bool.and_eq_true] at h
          exact h
        have hl : (pack 'd' (List.length (encodePairs ps)) (encodePairs ps)).length
            ≤ f + 1 := hlen
        rw [pack_length] at hl
        have hns : 1 ≤ (natStr (encodePairs ps).length).length :=
          List.length_pos.mpr (natStr_ne_nil _)
        show decodeVal (f + 1)
              (pack 'd' (List.length (encodePairs ps)) (encodePairs ps) ++ rest)
            = Except.ok (Value.dict ps,
                (pack 'd' (List.length (encodePairs ps)) (encodePairs ps)).length)
        rw [decodeVal_succ_eq, if_neg (by decide), if_neg (by decide),
          if_neg (by decide), if_neg (by decide), if_neg (by decide),
          if_neg (by decide), if_neg (by decide), if_neg (by decide),
          if_neg (by decide), if_pos rfl,
          ihp ps hw.1 (by omega), errBind_ok, toPairShapes_map, errBind_ok,
          pyDictOf_nodup ps hw.2, pack_length]
        simp only [Except.ok.injEq, Prod.mk.injEq]
        exact ⟨by trivial, by omega⟩
    · intro vs hwl hlen
      cases vs with
      | nil => rfl
      | cons v tl =>
        obtain ⟨t, p, hp⟩ := encodeVal_shape v
        have hwv : wf v = true ∧ wfList tl = true := by
          have h := hwl
          simp only [wfList, Bool.and_eq_true] at h
          exact h
        have hlen' : ((encodeVal v).1).length + (encodeItems tl).length + 1 ≤ f + 1 := by
          have he : encodeItems (v :: tl) = (encodeVal v).1 ++ encodeItems tl := by
            simp [encodeItems]
          rw [he, List.length_append] at hlen
          omega
        have hge := encodeVal_length_ge v
        have hcons : encodeItems (v :: tl)
            = t :: (natStr p.length ++ ':' :: (p ++ encodeItems tl)) := by
          simp [encodeItems, hp, pack]
        rw [hcons]
        simp only [decodeItems]
        have heq : dumps v ++ encodeItems tl
            = t :: (natStr p.length ++ ':' :: (p ++ encodeItems tl)) := by
          simp [dumps, hp, pack]
        have hdec : decodeVal f (t :: (natStr p.length ++ ':' :: (p ++ encodeItems tl)))
            = .ok (v, (dumps v).length) := by
          rw [← heq]
          exact ihv v (encodeItems tl) hwv.1 (by
            have h : (dumps v).length = ((encodeVal v).1).length := rfl
            omega)
        rw [hdec]
        simp only [errBind_ok]
        have hdrop : (t :: (natStr p.length ++ ':' :: (p ++ encodeItems tl))).drop
              (dumps v).length = encodeItems tl := by
          rw [← heq]
          exact List.drop_left _ _
        rw [hdrop, ihi tl hwv.2 (by
          have h : (dumps v).length = ((encodeVal v).1).length := rfl
          omega)]
        rfl
    · intro ps hwp hlen
      cases ps with
      | nil => rfl
      | cons q tl =>
        obtain ⟨k, v⟩ := q
        have hw : wf k = true ∧ wf v = true ∧ wfPairs tl = true := by
          have h := hwp
          simp only [wfPairs, Bool.and_eq_true] at h
          exact ⟨h.1.1, h.1.2, h.2⟩
        have hitems : encodeItems [k, v] = (encodeVal k).1 ++ (encodeVal v).1 := by
          simp [encodeItems]
        have hconsP : encodePairs ((k, v) :: tl)
            = pack 'T' ((encodeVal k).1 ++ (encodeVal v).1).length
                ((encodeVal k).1 ++ (encodeVal v).1) ++ encodePairs tl := rfl
        have hlen' : (pack 'T' ((encodeVal k).1 ++ (encodeVal v).1).length
              ((encodeVal k).1 ++ (encodeVal v).1)).length
              + (encodePairs tl).length + 1 ≤ f + 1 := by
          rw [hconsP, List.length_append] at hlen
          omega
        have hpl : (pack 'T' ((encodeVal k).1 ++ (encodeVal v).1).length
              ((encodeVal k).1 ++ (encodeVal v).1)).length
            = (natStr ((encodeVal k).1 ++ (encodeVal v).1).length).length + 2
              + ((encodeVal k).1 ++ (encodeVal v).1).length := pack_length _ _ _
        have hns : 1 ≤ (natStr ((encodeVal k).1 ++ (encodeVal v).1).length).length :=
          List.length_pos.mpr (natStr_ne_nil _)
        have hpk : pack 'T' ((encodeVal k).1 ++ (encodeVal v).1).length
              ((encodeVal k).1 ++ (encodeVal v).1) ++ encodePairs tl
            = 'T' :: (natStr ((encodeVal k).1 ++ (encodeVal v).1).length
                ++ ':' :: (((encodeVal k).1 ++ (encodeVal v).1) ++ encodePairs tl)) := by
          simp [pack]
        rw [hconsP, hpk]
        simp only [decodePairs]
        have hunp : unpack ('T' :: (natStr ((encodeVal k).1 ++ (encodeVal v).1).length
              ++ ':' :: (((encodeVal k).1 ++ (encodeVal v).1) ++ encodePairs tl)))
            = .ok ((encodeVal k).1 ++ (encodeVal v).1,
                ((((encodeVal k).1 ++ (encodeVal v).1).length : Nat) : Int),
                (natStr ((encodeVal k).1 ++ (encodeVal v).1).length).length + 2) := by
          rw [← hpk]
          exact unpack_pack 'T' _ _
        rw [hunp]
        simp only [errBind_ok]
        have hwkv : wfList [k, v] = true := by
          simp [wfList, hw.1, hw.2.1]
        rw [show (encodeVal k).1 ++ (encodeVal v).1 = encodeItems [k, v]
          from hitems.symm, ihi [k, v] hwkv (by rw [hitems]; omega)]
        simp only [errBind_ok]
        have hdrop : ('T' :: (natStr (encodeItems [k, v]).length
              ++ ':' :: (encodeItems [k, v] ++ encodePairs tl))).drop
              ((encodeItems [k, v]).length
                + ((natStr (encodeItems [k, v]).length).length + 2))
            = encodePairs tl := by
          have harith : (encodeItems [k, v]).length
                + ((natStr (encodeItems [k, v]).length).length + 2)
              = (pack 'T' (encodeItems [k, v]).length (encodeItems [k, v])).length := by
            rw [pack_length]
            omega
          have hpk2 : 'T' :: (natStr (encodeItems [k, v]).length
                ++ ':' :: (encodeItems [k, v] ++ encodePairs tl))
              = pack 'T' (encodeItems [k, v]).length (encodeItems [k, v])
                ++ encodePairs tl := by
            simp [pack]
          rw [harith, hpk2]
          exact List.drop_left _ _
        rw [hdrop, ihp tl hw.2.2 (by omega)]
        simp only [errBind_ok]
        simp

end TLV

namespace TLV

/-! ### Top-level round-trip corollaries -/

theorem loads_dumps (v : Value) (h : wf v = true) : loads (dumps v) = .ok v := by
  unfold loads
  have hmain := (decode_encode_fuel ((dumps v).length + 1)).1 v [] h (by omega)
  rw [List.append_nil] at hmain
  rw [hmain]
  rfl

theorem loads_dumps_append (v : Value) (s : List Char) (h : wf v = true) :
    loads (dumps v ++ s) = .ok v := by
  unfold loads
  have hmain := (decode_encode_fuel ((dumps v ++ s).length + 1)).1 v s h
    (by simp only [List.length_append]; omega)
  rw [hmain]
  rfl

theorem errBind_error {α β : Type} (e : Err) (k : α → Except Err β) :
    (bind (Except.error e : Except Err α) k) = .error e := rfl

theorem pySlice_take (pre mid : List Char) (n : Nat) :
    pySlice (pre ++ mid) (pre.length : Int) ((pre.length : Int) + (n : Int))
      = mid.take n := by
  unfold pySlice pyIdx
  rw [if_neg (by omega), if_neg (by omega)]
  have h1 : ((pre.length : Int) + (n : Int)).toNat = pre.length + n := by omega
  have h2 : ((pre.length : Int)).toNat = pre.length := by omega
  rw [h1, h2]
  have h3 : min (pre.length + n) (pre ++ mid).length
      = pre.length + min n mid.length := by
    simp only [List.length_append]
    omega
  have h4 : min pre.length (pre ++ mid).length = pre.length := by
    simp only [List.length_append]
    omega
  rw [h3, h4, List.take_append_eq_append_take,
    List.take_of_length_le (by omega)]
  have h5 : pre.length + min n mid.length - pre.length = min n mid.length := by
    omega
  rw [h5, List.drop_left]
  rcases Nat.le_total n mid.length with h | h
  · rw [Nat.min_eq_left h]
  · rw [Nat.min_eq_right h, List.take_length, List.take_of_length_le h]

/-- Unpack on a fragment whose declared length `n` may disagree with the
actual payload length: the slice clamps, keeping at most `n` characters. -/
theorem unpack_declared (t : Char) (n : Nat) (payload : List Char) :
    unpack (t :: (natStr n ++ ':' :: payload))
      = .ok (payload.take n, (n : Int), (natStr n).length + 2) := by
  simp only [unpack]
  rw [takeWhile_ne_colon_append _ _ (natStr_ne_colon _), pyInt_natStr]
  simp only [Int.ofNat_eq_coe]
  have hsh : t :: (natStr n ++ ':' :: payload)
      = (t :: natStr n ++ [':']) ++ payload := by
    simp
  have hlen : ((natStr n).length + 2 : Nat)
      = (t :: natStr n ++ [':']).length := by
    simp only [List.length_cons, List.length_append, List.length_nil]
  rw [hsh, hlen, pySlice_take]

end TLV

namespace TLV

/-! ### Claim theorems -/

/-- C1: for every supported scalar value (`None`, boolean, text string,
integer, finite floating-point, timestamp), `loads (dumps v)` returns `v`
and Python `==` holds on the result; for floating-point NaN the decoded
result is NaN rather than `==`-equal. -/
theorem c1_scalar_roundtrip (v : Value) (hs : isScalar v = true)
    (hwf : wf v = true) :
    (v ≠ Value.float PyFloat.nan →
      loads (dumps v) = .ok v ∧ pyEq v v = true)
    ∧ (v = Value.float PyFloat.nan →
      loads (dumps v) = .ok (Value.float PyFloat.nan)
      ∧ pyEq (Value.float PyFloat.nan) (Value.float PyFloat.nan) = false) := by
  constructor
  · intro hne
    refine ⟨loads_dumps v hwf, pyEq_refl v ?_⟩
    cases v with
    | float x =>
      cases x with
      | nan => exact absurd rfl hne
      | num r => simp [hasNaN]
    | none => simp [hasNaN]
    | bool b => simp [hasNaN]
    | str s => simp [hasNaN]
    | int n => simp [hasNaN]
    | datetime d => simp [hasNaN]
    | list xs => simp [isScalar] at hs
    | tuple xs => simp [isScalar] at hs
    | set xs => simp [isScalar] at hs
    | dict ps => simp [isScalar] at hs
  · intro he
    subst he
    exact ⟨loads_dumps _ (by simp [wf]), by simp [pyEq]⟩

theorem c1_scalar_roundtrip_witness :
    (Value.int 5 ≠ Value.float PyFloat.nan →
      loads (dumps (Value.int 5)) = .ok (Value.int 5)
      ∧ pyEq (Value.int 5) (Value.int 5) = true)
    ∧ (Value.int 5 = Value.float PyFloat.nan →
      loads (dumps (Value.int 5)) = .ok (Value.float PyFloat.nan)
      ∧ pyEq (Value.float PyFloat.nan) (Value.float PyFloat.nan) = false) :=
  c1_scalar_roundtrip (Value.int 5) rfl (by simp [wf])

/-- C2 counterexample: for the list `[float nan]` the decoder returns a
structurally identical list, but Python `==` between the decoded list and
the original is `False` (NaN never compares equal), refuting the claim
as stated for NaN elements. -/
theorem c2_nan_list_cex :
    loads (dumps (Value.list [Value.float PyFloat.nan]))
      = .ok (Value.list [Value.float PyFloat.nan])
    ∧ pyEq (Value.list [Value.float PyFloat.nan])
        (Value.list [Value.float PyFloat.nan]) = false := by
  constructor
  · exact loads_dumps _ (by simp [wf, wfList])
  · simp [pyEq, pyEqList]

/-- C2 (amended): for every list or tuple of supported, well-formed
elements none of which contains NaN, `loads (dumps v)` returns `v`, with
Python `==` holding on the result (order and multiplicity preserved,
since the value is returned structurally intact). -/
theorem c2_container_roundtrip (v : Value) (_hc : isListOrTuple v = true)
    (hwf : wf v = true) (hn : hasNaN v = false) :
    loads (dumps v) = .ok v ∧ pyEq v v = true :=
  ⟨loads_dumps v hwf, pyEq_refl v hn⟩

theorem c2_container_roundtrip_witness :
    loads (dumps (Value.list [Value.int 1, Value.str (strL "ab")]))
      = .ok (Value.list [Value.int 1, Value.str (strL "ab")])
    ∧ pyEq (Value.list [Value.int 1, Value.str (strL "ab")])
        (Value.list [Value.int 1, Value.str (strL "ab")]) = true :=
  c2_container_roundtrip (Value.list [Value.int 1, Value.str (strL "ab")])
    rfl (by simp [wf, wfList]) (by simp [hasNaN, hasNaNList])

/-- C3 counterexample: `loads "S99:short"` does not fail; Python slicing
clamps, so the decoder silently truncates to the five available payload
characters and returns `"short"`. -/
theorem c3_truncation_cex :
    loads (strL "S99:short") = .ok (Value.str (strL "short")) := rfl

/-- C3 (amended): when a string fragment's declared length is at least
the available payload length, `loads` succeeds and returns the whole
remaining payload: the decoder silently truncates to the available text
instead of raising an error. -/
theorem c3_silent_truncation (n : Nat) (payload : List Char)
    (h : payload.length ≤ n) :
    loads ('S' :: (natStr n ++ ':' :: payload)) = .ok (Value.str payload) := by
  unfold loads
  simp only [decodeVal, if_true]
  rw [unpack_declared 'S' n payload]
  simp only [errBind_ok]
  rw [List.take_of_length_le h]
  rfl

theorem c3_silent_truncation_witness :
    (strL "short").length ≤ 99
    ∧ loads (strL "S99:short") = .ok (Value.str (strL "short")) :=
  ⟨by decide, c3_silent_truncation 99 (strL "short") (by decide)⟩

/-- C4 counterexample: `loads "S5"` lacks the delimiter entirely, yet it
succeeds and returns the empty string (the length field becomes the whole
remainder `"5"`, and the out-of-range slice clamps to empty), refuting
the claim that a missing delimiter always fails. -/
theorem c4_missing_delimiter_cex :
    loads (strL "S5") = .ok (Value.str []) := rfl

/-- C4 (amended): `loads` fails on empty input (index error reading the
tag), on an unregistered leading tag (key error), and whenever the text
between the tag and the first delimiter (the whole remainder when no
delimiter exists) does not parse as a Python integer (value error).
A parseable negative length or a missing delimiter with a parseable
remainder does not by itself cause an error. -/
theorem c4_malformed_inputs (raw : List Char) :
    (raw = [] → loads raw = .error .indexError)
    ∧ (∀ t rest, raw = t :: rest → tagRegistered t = false →
        loads raw = .error .keyError)
    ∧ (∀ t rest, raw = t :: rest → tagRegistered t = true →
        pyInt (rest.takeWhile notColon) = Option.none →
        loads raw = .error .valueError) := by
  refine ⟨?_, ?_, ?_⟩
  · intro h
    subst h
    rfl
  · intro t rest hr ht
    subst hr
    have h1 : ¬(t = 'N') := by intro h; subst h; simp [tagRegistered] at ht
    have h2 : ¬(t = 'B') := by intro h; subst h; simp [tagRegistered] at ht
    have h3 : ¬(t = 'S') := by intro h; subst h; simp [tagRegistered] at ht
    have h4 : ¬(t = 'D') := by intro h; subst h; simp [tagRegistered] at ht
    have h5 : ¬(t = 'I') := by intro h; subst h; simp [tagRegistered] at ht
    have h6 : ¬(t = 'F') := by intro h; subst h; simp [tagRegistered] at ht
    have h7 : ¬(t = 'L') := by intro h; subst h; simp [tagRegistered] at ht
    have h8 : ¬(t = 'T') := by intro h; subst h; simp [tagRegistered] at ht
    have h9 : ¬(t = 's') := by intro h; subst h; simp [tagRegistered] at ht
    have h10 : ¬(t = 'd') := by intro h; subst h; simp [tagRegistered] at ht
    unfold loads
    simp only [decodeVal]
    rw [if_neg h1, if_neg h2, if_neg h3, if_neg h4, if_neg h5, if_neg h6,
      if_neg h7, if_neg h8, if_neg h9, if_neg h10]
    rfl
  · intro t rest hr ht hpy
    subst hr
    have hunp : unpack (t :: rest) = .error .valueError := by
      simp only [unpack]
      rw [hpy]
    unfold loads
    simp only [decodeVal]
    rw [hunp]
    simp only [errBind_error]
    simp only [tagRegistered, Bool.or_eq_true, decide_eq_true_eq] at ht
    rcases ht with (((((((((h|h)|h)|h)|h)|h)|h)|h)|h)|h) <;> subst h <;> rfl

theorem c4_malformed_inputs_witness :
    loads ([] : List Char) = .error .indexError
    ∧ loads (strL "Z5:hello") = .error .keyError
    ∧ loads (strL "Sx:") = .error .valueError :=
  ⟨(c4_malformed_inputs []).1 rfl,
   (c4_malformed_inputs (strL "Z5:hello")).2.1 'Z' (strL "5:hello") rfl rfl,
   (c4_malformed_inputs (strL "Sx:")).2.2 'S' (strL "x:") rfl rfl rfl⟩

/-- C5: the four concrete examples from the spec: `dumps(None)`,
`dumps(True)`, `dumps([1, 2])` and `loads("L8:I1:1I1:2")`. -/
theorem c5_examples :
    dumps Value.none = strL "N0:"
    ∧ dumps (Value.bool true) = strL "B1:1"
    ∧ dumps (Value.list [Value.int 1, Value.int 2]) = strL "L8:I1:1I1:2"
    ∧ loads (strL "L8:I1:1I1:2") = .ok (Value.list [Value.int 1, Value.int 2]) :=
  ⟨rfl, rfl, rfl, rfl⟩

/-- C6: decoding the fragment of any well-formed value reports a consumed
length equal to the fragment's character count; decoding the
concatenation of two independently encoded fragments returns the first
value with a consumed length strictly below the concatenation's total
length. -/
theorem c6_framing_exactness (v1 v2 : Value) (h1 : wf v1 = true)
    (_h2 : wf v2 = true) :
    decodeVal ((dumps v1).length + 1) (dumps v1) = .ok (v1, (dumps v1).length)
    ∧ decodeVal ((dumps v1 ++ dumps v2).length + 1) (dumps v1 ++ dumps v2)
        = .ok (v1, (dumps v1).length)
    ∧ (dumps v1).length < (dumps v1 ++ dumps v2).length := by
  refine ⟨?_, ?_, ?_⟩
  · have h := (decode_encode_fuel ((dumps v1).length + 1)).1 v1 [] h1 (by omega)
    rw [List.append_nil] at h
    exact h
  · exact (decode_encode_fuel ((dumps v1 ++ dumps v2).length + 1)).1 v1
      (dumps v2) h1 (by simp only [List.length_append]; omega)
  · have h3 : 3 ≤ (dumps v2).length := encodeVal_length_ge v2
    simp only [List.length_append]
    omega

theorem c6_framing_exactness_witness :
    decodeVal ((dumps (Value.int 1)).length + 1) (dumps (Value.int 1))
      = .ok (Value.int 1, (dumps (Value.int 1)).length)
    ∧ decodeVal ((dumps (Value.int 1) ++ dumps Value.none).length + 1)
        (dumps (Value.int 1) ++ dumps Value.none)
      = .ok (Value.int 1, (dumps (Value.int 1)).length)
    ∧ (dumps (Value.int 1)).length
        < (dumps (Value.int 1) ++ dumps Value.none).length :=
  c6_framing_exactness (Value.int 1) Value.none (by simp [wf]) (by simp [wf])

/-- C7: a dictionary encodes as a `d`-tagged fragment whose VALUE is the
concatenation, in iteration order, of one tuple-shaped pair fragment per
entry, each pair fragment identical to the container encoding of the
2-tuple `(key, value)`. -/
theorem c7_dict_encoding (ps : List (Value × Value)) :
    dumps (Value.dict ps)
      = 'd' :: (natStr (encodePairs ps).length ++ ':' :: encodePairs ps)
    ∧ encodePairs ps
      = (ps.map (fun p => dumps (Value.tuple [p.1, p.2]))).flatten := by
  refine ⟨rfl, ?_⟩
  induction ps with
  | nil => rfl
  | cons q tl ih =>
    obtain ⟨k, v⟩ := q
    simp only [encodePairs, List.map_cons, List.flatten, ih]
    congr 1
    simp [dumps, encodeVal, encodeItems, pack]

/-- C8: characters after a complete encoded fragment are silently
ignored: `loads` of the fragment plus any trailing text succeeds and
returns the same value as `loads` of the fragment alone. -/
theorem c8_trailing_garbage (v : Value) (s : List Char) (h : wf v = true) :
    loads (dumps v ++ s) = .ok v ∧ loads (dumps v) = .ok v :=
  ⟨loads_dumps_append v s h, loads_dumps v h⟩

theorem c8_trailing_garbage_witness :
    loads (dumps (Value.int 7) ++ strL "garbage") = .ok (Value.int 7)
    ∧ loads (dumps (Value.int 7)) = .ok (Value.int 7) :=
  c8_trailing_garbage (Value.int 7) (strL "garbage") (by simp [wf])

/-- C9: boolean decoding is not restricted to payloads `"0"`/`"1"`: for
every payload text parsing as a Python integer `n`, decoding the
`B`-tagged fragment succeeds and returns `True` exactly when `n` is
nonzero. -/
theorem c9_bool_numeric_payload (payload : List Char) (n : Int)
    (h : pyInt payload = some n) :
    loads ('B' :: (natStr payload.length ++ ':' :: payload))
      = .ok (Value.bool (n != 0)) := by
  unfold loads
  simp only [decodeVal, if_true]
  rw [unpack_declared 'B' payload.length payload]
  simp only [errBind_ok, List.take_length]
  rw [h]
  rfl

theorem c9_bool_numeric_payload_witness :
    pyInt (strL "7") = some 7
    ∧ loads (strL "B1:7") = .ok (Value.bool ((7 : Int) != 0)) :=
  ⟨rfl, c9_bool_numeric_payload (strL "7") 7 rfl⟩

/-- C10: decoding an `N`-tagged fragment ignores declared length and
payload entirely: for any declared length covered by the available
payload, `loads` succeeds and returns `None`. -/
theorem c10_none_ignores_payload (n : Nat) (payload : List Char)
    (_h : n ≤ payload.length) :
    loads ('N' :: (natStr n ++ ':' :: payload)) = .ok Value.none := by
  unfold loads
  simp only [decodeVal, if_true]
  rw [unpack_declared 'N' n payload]
  simp only [errBind_ok]
  rfl

theorem c10_none_ignores_payload_witness :
    3 ≤ (strL "abc").length
    ∧ loads (strL "N3:abc") = .ok Value.none :=
  ⟨by decide, c10_none_ignores_payload 3 (strL "abc") (by decide)⟩

end TLV
